import Mathlib

/-!
Verification of the `string_replace_all` crate (src/lib.rs).

Strings are modelled as `List Char` (Rust `&str`/`String` at char-boundary
granularity; every pattern, replacement and input in the crate is a valid
UTF-8 string, so char-level modelling is faithful).

The external regex engine (the `regex` crate) is modelled by the small
`Regexp` fragment below, covering exactly the regexes the crate builds or
its documentation exercises: a literal string (`Regex::new(&regex::escape(l))`
or the empty regex `Regex::new("")`), a case-insensitive literal
(`Regex::new("(?i)...")`), and the cleanup pattern
`Regex::new(&format!("(?:{ })+", regex::escape(replacement)))`, whose
leftmost-first greedy semantics is: at each position, match as many
consecutive back-to-back copies of the literal as possible.

`Regex::replace_all` with a `&str` replacement performs capture-group
interpolation on the replacement before emitting it (`$0` is the whole
match, `$$` a literal dollar, an unknown group expands to the empty
string); `expandRepl` models this. None of the modelled regexes has a
capture group other than group 0 (the cleanup group `(?:...)` is
non-capturing), so group 0 is the only reference that expands non-trivially.

All recursive scanners take an explicit fuel argument so that they are
structurally recursive (hence kernel-evaluable by `decide`/`rfl`); fuel equal
to the length of the scanned list is always sufficient because every
recursive call strictly shortens the list, and the wrappers pass exactly
that fuel.
-/

/-- The two pattern kinds accepted by `string_replace_all` and
`replace_all` (Rust `enum Pattern<'a> { Str(&'a str), Regex(Regex) }`). -/
inductive Regexp where
  | lit : List Char → Regexp
  | ilit : List Char → Regexp
  | plusLit : List Char → Regexp
deriving DecidableEq

/-- Fueled helper: drop as many leading back-to-back copies of `l` as
possible (the greedy consumption performed by a `(?:l)+` match). -/
def dropRunsF (l : List Char) : Nat → List Char → List Char
  | fuel+1, s => if l ≠ [] ∧ l <+: s then dropRunsF l fuel (s.drop l.length) else s
  | 0, s => s

/-- Drop every leading back-to-back copy of `l` from `s`. -/
def dropRuns (l s : List Char) : List Char := dropRunsF l s.length s

/-- Number of characters consumed by the greedy `(?:l)+` match at the start
of `s` (0 when there is no copy of `l` at the start). -/
def runLen (l s : List Char) : Nat := s.length - (dropRuns l s).length

/-- Character-wise lower casing, modelling the regex engine's caseless
comparison for the ASCII-only case-insensitive literals used by the crate. -/
def lowerStr (s : List Char) : List Char := s.map Char.toLower

/-- Length of the leftmost-first match of the regex at the start of `s`
(`none` when the regex does not match at the start):
`lit l` matches exactly the literal `l` (the empty literal models
`Regex::new("")`, which matches the empty string everywhere);
`ilit l` matches `l` caselessly (models `Regex::new("(?i)...")`);
`plusLit l` models `(?:escape(l))+`: it matches greedily as many
back-to-back copies of `l` as possible. -/
def matchLen : Regexp → List Char → Option Nat
  | .lit l, s => if l <+: s then some l.length else none
  | .ilit l, s => if lowerStr l <+: lowerStr s then some l.length else none
  | .plusLit l, s =>
    if l = [] then some 0
    else if l <+: s then some (runLen l s)
    else none

/-- A character that may appear in an unbraced capture-group reference
after `$`, per the regex crate's replacement syntax: `[0-9A-Za-z_]`. -/
def isCapLetter (c : Char) : Bool := c.isAlphanum || c = '_'

/-- The digit part of a capture reference as Rust's `str::parse::<u32>`
sees it: an optional leading `+` sign is stripped. -/
def refDigits (ref : List Char) : List Char :=
  match ref with
  | c :: rest => if c = '+' then rest else ref
  | [] => []

/-- Resolve one capture reference of the replacement string: the reference
names group 0 (the whole match) exactly when it parses as the number 0 —
optional `+` sign, then a nonempty run of `0` digits (any nonzero value,
overflow, or non-numeric name is a group that does not exist in the
modelled regexes and expands to the empty string). -/
def expandRef (matched ref : List Char) : List Char :=
  if refDigits ref ≠ [] ∧ (refDigits ref).all (fun c => c = '0') then matched else []

/-- Fueled model of the regex crate's replacement-string interpolation
(`expand_str`): `$$` emits a literal `$`; `$` followed by the longest run
of capture letters is a group reference; `$` followed by a brace takes the
reference up to the closing brace (a missing closing brace leaves the `$`
literal); a `$` followed by neither is literal; all other characters are
copied. Fuel at least the length of the replacement suffices. -/
def expandReplF (matched : List Char) : Nat → List Char → List Char
  | _, [] => []
  | 0, s => s
  | fuel+1, c :: rest =>
    if c = '$' then
      match rest with
      | [] => ['$']
      | d :: rest2 =>
        if d = '$' then '$' :: expandReplF matched fuel rest2
        else if d = Char.ofNat 123 then
          match rest2.dropWhile (fun x => x ≠ Char.ofNat 125) with
          | [] => '$' :: expandReplF matched fuel rest
          | _ :: after2 =>
            expandRef matched (rest2.takeWhile (fun x => x ≠ Char.ofNat 125))
              ++ expandReplF matched fuel after2
        else
          if isCapLetter d then
            expandRef matched ((d :: rest2).takeWhile isCapLetter)
              ++ expandReplF matched fuel ((d :: rest2).dropWhile isCapLetter)
          else '$' :: expandReplF matched fuel rest
    else c :: expandReplF matched fuel rest

/-- Interpolate the replacement string `rep` for a match whose group 0
text is `matched`. -/
def expandRepl (matched rep : List Char) : List Char := expandReplF matched rep.length rep

/-- Fueled scanner modelling `Regex::replace_all`: scan left to right; at
each position take the leftmost-first match if any, emit the interpolated
replacement (`expandRepl` with the matched text as group 0), and resume
after the match (after an empty-width match the engine emits the current
character and advances by one, exactly as `regex::Regex::replace_all`
does for empty matches). -/
def Regexp.replaceF (re : Regexp) (rep : List Char) : Nat → List Char → List Char
  | _, [] => if (matchLen re []).isSome then expandRepl [] rep else []
  | 0, s => s
  | fuel+1, c :: rest =>
    match matchLen re (c :: rest) with
    | none => c :: Regexp.replaceF re rep fuel rest
    | some 0 => expandRepl [] rep ++ c :: Regexp.replaceF re rep fuel rest
    | some (n+1) =>
      expandRepl ((c :: rest).take (n+1)) rep
        ++ Regexp.replaceF re rep fuel ((c :: rest).drop (n+1))

/-- Model of `r.replace_all(haystack, rep)` from the `regex` crate. -/
def Regexp.replace_all (re : Regexp) (haystack rep : List Char) : List Char :=
  Regexp.replaceF re rep haystack.length haystack

/-- Fueled scanner modelling Rust `str::replace` for a non-empty needle:
replace each leftmost non-overlapping occurrence of `pat`, left to right. -/
def strReplaceF (pat repl : List Char) : Nat → List Char → List Char
  | _, [] => []
  | 0, s => s
  | fuel+1, c :: rest =>
    if pat <+: (c :: rest) then repl ++ strReplaceF pat repl fuel ((c :: rest).drop pat.length)
    else c :: strReplaceF pat repl fuel rest

/-- Model of Rust `self.replace(pat, repl)` (`str::replace`): for an empty
needle, `match_indices("")` yields every char boundary, so `repl` is
inserted before every character and at the end; otherwise every leftmost
non-overlapping occurrence of `pat` is replaced by `repl`. -/
def strReplace (self pat repl : List Char) : List Char :=
  if pat = [] then repl ++ self.flatMap (fun c => c :: repl)
  else strReplaceF pat repl self.length self

/-- The two pattern kinds of the crate's `Pattern<'a>` enum. -/
inductive Pattern where
  | Str : List Char → Pattern
  | Regex : Regexp → Pattern

/-- Model of `pub fn string_replace_all(input, pattern, replacement)`:
literal branch short-circuits when the literal equals the replacement or is
empty, otherwise substitutes with `str::replace`; regex branch substitutes
with `Regex::replace_all`; then, when `replacement` is non-empty, the
cleanup regex `(?:escape(replacement))+` (modelled by
`Regexp.plusLit replacement`) replaces every greedy leftmost run of
back-to-back copies of `replacement` with a single copy. -/
def string_replace_all (input : List Char) (pattern : Pattern) (replacement : List Char) :
    List Char :=
  match pattern with
  | .Str s =>
    if s = replacement ∨ s = [] then input
    else
      let result := strReplace input s replacement
      if replacement ≠ [] then Regexp.replace_all (.plusLit replacement) result replacement
      else result
  | .Regex r =>
    let result := Regexp.replace_all r input replacement
    if replacement ≠ [] then Regexp.replace_all (.plusLit replacement) result replacement
    else result

/-- Model of the trait method `StringReplaceAll::replace_all` (the `String`
impl; the `str` impl converts to `String` and delegates to it, so both are
the same function): a plain `str::replace` for literals and a plain
`Regex::replace_all` for regexes, with no short-circuit and no cleanup. -/
def replace_all (self : List Char) (pattern : Pattern) (replacement : List Char) : List Char :=
  match pattern with
  | .Str s => strReplace self s replacement
  | .Regex r => Regexp.replace_all r self replacement

/-- Modelled from the spec: the external regex engine's metacharacters,
the set escaped by `regex::escape` (the engine itself is an external
collaborator, not part of this repository's sources). -/
def isMeta (c : Char) : Bool :=
  c ∈ ['\\', '.', '+', '*', '?', '(', ')', '|', '[', ']',
       Char.ofNat 123, Char.ofNat 125, '^', '$', '#', '&', '-', '~']

/-- Escape a single character as `regex::escape` does: a backslash is put
before every metacharacter, other characters are kept as they are. -/
def escapeChar (c : Char) : List Char := if isMeta c then ['\\', c] else [c]

/-- Model of `regex::escape`. -/
def regexEscape (s : List Char) : List Char := s.flatMap escapeChar

/-- Parser states of the regex-syntax validity checker: `normal canQ`
(top level or inside a group body; `canQ` records whether a quantifier may
appear here, i.e. whether an atom was just closed), `esc` (just after a
backslash), `grp1` (just after `(`), `grp2` (just after `(?`). -/
inductive RState where
  | normal : Bool → RState
  | esc : RState
  | grp1 : RState
  | grp2 : RState

/-- Modelled from the spec: validity checker for the PCRE-like concrete
syntax fragment of the external regex engine that the crate's cleanup
pattern lives in — literal characters, backslash-escaped metacharacters,
non-capturing groups `(?:...)`, and the `+` quantifier (legal only right
after an atom). `depth` counts open groups. A string is a valid regex of
the fragment iff `checkRegex 0 (.normal false)` returns `true` on it. -/
def checkRegex : Nat → RState → List Char → Bool
  | depth, st, [] =>
    match st with
    | .normal _ => depth == 0
    | _ => false
  | depth, st, c :: rest =>
    match st with
    | .esc => isMeta c && checkRegex depth (.normal true) rest
    | .grp1 => (c == '?') && checkRegex depth .grp2 rest
    | .grp2 => (c == ':') && checkRegex (depth+1) (.normal false) rest
    | .normal canQ =>
      if c = '\\' then checkRegex depth .esc rest
      else if c = '(' then checkRegex depth .grp1 rest
      else if c = ')' then (depth != 0) && checkRegex (depth - 1) (.normal true) rest
      else if c = '+' then canQ && checkRegex depth (.normal false) rest
      else if isMeta c then false
      else checkRegex depth (.normal true) rest

/-- The source text of the cleanup pattern the crate hands to `Regex::new`:
`format!("(?:{ })+", regex::escape(replacement))`. -/
def cleanupPatternStr (replacement : List Char) : List Char :=
  '(' :: '?' :: ':' :: (regexEscape replacement ++ [')', '+'])

/-- `r` has no nontrivial border: no nonempty proper prefix of `r` is also
a suffix of `r` (so distinct occurrences of `r` can never overlap; this
makes the spec's "not overlapping itself ambiguously" precise). -/
def Unbordered (r : List Char) : Prop :=
  ∀ k, k < r.length → 0 < k → r.take k ≠ r.drop (r.length - k)

instance (r : List Char) : Decidable (Unbordered r) := by
  unfold Unbordered; exact Nat.decidableBallLT _ _

/-! ## General list helpers -/

/-- A prefix of `a ++ b` that is no longer than `a` is a prefix of `a`. -/
theorem prefix_of_append_right {x a b : List Char} (h : x <+: a ++ b)
    (hl : x.length ≤ a.length) : x <+: a := by
  have hx := List.prefix_iff_eq_take.mp h
  rw [List.take_append_eq_append_take] at hx
  have h0 : x.length - a.length = 0 := by omega
  rw [h0] at hx
  simp only [List.take_zero, List.append_nil] at hx
  rw [hx]
  exact List.take_prefix _ _

/-- Cancel a common left factor of a prefix relation. -/
theorem prefix_append_cancel {a x y : List Char} (h : a ++ x <+: a ++ y) : x <+: y := by
  obtain ⟨t, ht⟩ := h
  rw [List.append_assoc] at ht
  exact ⟨t, List.append_cancel_left ht⟩

/-- A list is an infix of `z` exactly when it is a prefix of some tail of `z`. -/
theorem infix_iff_exists_drop {l z : List Char} : l <:+: z ↔ ∃ i, l <+: z.drop i := by
  constructor
  · rintro ⟨u, v, rfl⟩
    refine ⟨u.length, ?_⟩
    rw [List.append_assoc, List.drop_left]
    exact List.prefix_append _ _
  · rintro ⟨i, h⟩
    exact (List.IsPrefix.isInfix h).trans (List.IsSuffix.isInfix (List.drop_suffix i z))

/-- An infix of a cons is a prefix of it or an infix of the tail. -/
theorem infix_cons_elim {l : List Char} {c : Char} {t : List Char} (h : l <:+: c :: t) :
    l <+: c :: t ∨ l <:+: t := by
  rcases infix_iff_exists_drop.mp h with ⟨i, hi⟩
  cases i with
  | zero => exact Or.inl hi
  | succ j =>
    rw [List.drop_succ_cons] at hi
    exact Or.inr (infix_iff_exists_drop.mpr ⟨j, hi⟩)

/-- Dropping everything before a suffix recovers the suffix. -/
theorem suffix_drop_eq {t s : List Char} (h : t <:+ s) : s.drop (s.length - t.length) = t := by
  obtain ⟨u, rfl⟩ := h
  have hlen : (u ++ t).length - t.length = u.length := by
    simp [List.length_append]
  rw [hlen, List.drop_left]

/-! ## Properties of the greedy run consumption `dropRuns` -/

theorem dropRunsF_suffix (l : List Char) : ∀ fuel s, dropRunsF l fuel s <:+ s := by
  intro fuel
  induction fuel with
  | zero => intro s; simp [dropRunsF]
  | succ n ih =>
    intro s
    simp only [dropRunsF]
    split
    · exact (ih _).trans (List.drop_suffix _ _)
    · exact List.suffix_refl _

theorem dropRuns_suffix (l s : List Char) : dropRuns l s <:+ s := dropRunsF_suffix l _ s

theorem dropRunsF_not_prefix {l : List Char} (hl : l ≠ []) :
    ∀ fuel s, s.length ≤ fuel → ¬ l <+: dropRunsF l fuel s := by
  intro fuel
  induction fuel with
  | zero =>
    intro s hs
    have : s = [] := List.length_eq_zero.mp (Nat.le_zero.mp hs)
    subst this
    simp only [dropRunsF]
    intro hp
    exact hl (List.prefix_nil.mp hp)
  | succ n ih =>
    intro s hs
    simp only [dropRunsF]
    split
    · rename_i hcond
      apply ih
      have h1 : 0 < l.length := List.length_pos.mpr hl
      have h2 := hcond.2.length_le
      rw [List.length_drop]
      omega
    · rename_i hcond
      intro hp
      exact hcond ⟨hl, hp⟩

theorem dropRuns_not_prefix {l : List Char} (hl : l ≠ []) (s : List Char) :
    ¬ l <+: dropRuns l s := dropRunsF_not_prefix hl _ s le_rfl

theorem dropRuns_length {l s : List Char} (hl : l ≠ []) (hp : l <+: s) :
    (dropRuns l s).length + l.length ≤ s.length := by
  have hlpos : 0 < l.length := List.length_pos.mpr hl
  have hspos : 0 < s.length := lt_of_lt_of_le hlpos hp.length_le
  obtain ⟨m, hm⟩ := Nat.exists_eq_succ_of_ne_zero (Nat.pos_iff_ne_zero.mp hspos)
  unfold dropRuns
  rw [hm]
  simp only [dropRunsF]
  rw [if_pos ⟨hl, hp⟩]
  have h1 : (dropRunsF l m (s.drop l.length)).length ≤ (s.drop l.length).length :=
    (dropRunsF_suffix _ _ _).length_le
  have h2 : (s.drop l.length).length = s.length - l.length := List.length_drop _ _
  have h4 : l.length ≤ s.length := hp.length_le
  omega

/-! ## The cleanup regex `(?:r)+`: match-length facts and scanner equations -/

theorem matchLen_plusLit_of_not_prefix {r s : List Char} (hl : r ≠ []) (h : ¬ r <+: s) :
    matchLen (.plusLit r) s = none := by
  simp [matchLen, hl, h]

theorem matchLen_plusLit_of_prefix {r s : List Char} (hl : r ≠ []) (h : r <+: s) :
    matchLen (.plusLit r) s = some (runLen r s) := by
  simp [matchLen, hl, h]

theorem runLen_pos {r s : List Char} (hl : r ≠ []) (h : r <+: s) : 0 < runLen r s := by
  unfold runLen
  have h1 := dropRuns_length hl h
  have h2 : 0 < r.length := List.length_pos.mpr hl
  omega

theorem drop_runLen (r s : List Char) : s.drop (runLen r s) = dropRuns r s := by
  unfold runLen
  exact suffix_drop_eq (dropRuns_suffix r s)

theorem expandReplF_nodollar {matched : List Char} :
    ∀ (s : List Char) (fuel : Nat), '$' ∉ s → expandReplF matched fuel s = s := by
  intro s
  induction s with
  | nil => intro fuel _; cases fuel <;> simp [expandReplF]
  | cons c rest ih =>
    intro fuel hd
    have hc : c ≠ '$' := fun h => hd (h ▸ List.mem_cons_self c rest)
    have hrest : '$' ∉ rest := fun h => hd (List.mem_cons_of_mem c h)
    cases fuel with
    | zero => simp [expandReplF]
    | succ n =>
      simp only [expandReplF]
      rw [if_neg hc, ih n hrest]

/-- A replacement string containing no `$` interpolates to itself, for
every match. -/
theorem expandRepl_nodollar {matched rep : List Char} (hd : '$' ∉ rep) :
    expandRepl matched rep = rep := expandReplF_nodollar rep rep.length hd

theorem replaceF_plusLit_nil {r : List Char} (hl : r ≠ []) (rep : List Char) (fuel : Nat) :
    Regexp.replaceF (.plusLit r) rep fuel [] = [] := by
  have hm : matchLen (.plusLit r) [] = none :=
    matchLen_plusLit_of_not_prefix hl (fun hp => hl (List.prefix_nil.mp hp))
  cases fuel <;> simp [Regexp.replaceF, hm]

theorem replaceF_plusLit_cons_neg {r : List Char} {c : Char} {rest : List Char}
    (hl : r ≠ []) (h : ¬ r <+: (c :: rest)) (rep : List Char) (fuel : Nat) :
    Regexp.replaceF (.plusLit r) rep (fuel+1) (c :: rest)
      = c :: Regexp.replaceF (.plusLit r) rep fuel rest := by
  simp [Regexp.replaceF, matchLen_plusLit_of_not_prefix hl h]

theorem replaceF_plusLit_cons_pos {r : List Char} {c : Char} {rest : List Char}
    (hl : r ≠ []) (h : r <+: (c :: rest)) (rep : List Char) (fuel : Nat) :
    Regexp.replaceF (.plusLit r) rep (fuel+1) (c :: rest)
      = expandRepl ((c :: rest).take (runLen r (c :: rest))) rep
          ++ Regexp.replaceF (.plusLit r) rep fuel (dropRuns r (c :: rest)) := by
  have hm := matchLen_plusLit_of_prefix hl h
  obtain ⟨n, hn⟩ := Nat.exists_eq_succ_of_ne_zero (Nat.pos_iff_ne_zero.mp (runLen_pos hl h))
  rw [hn] at hm
  simp only [Regexp.replaceF, hm]
  have hn' : runLen r (c :: rest) = n + 1 := hn
  rw [← hn', drop_runLen]

/-- For a `$`-free replacement the cleanup scanner emits the replacement
itself at every matched run. -/
theorem replaceF_plusLit_cons_pos_nodollar {r : List Char} {c : Char} {rest : List Char}
    {rep : List Char} (hl : r ≠ []) (hd : '$' ∉ rep) (h : r <+: (c :: rest)) (fuel : Nat) :
    Regexp.replaceF (.plusLit r) rep (fuel+1) (c :: rest)
      = rep ++ Regexp.replaceF (.plusLit r) rep fuel (dropRuns r (c :: rest)) := by
  rw [replaceF_plusLit_cons_pos hl h rep fuel, expandRepl_nodollar hd]

/-! ## The collapse pass on an unbordered replacement -/

/-- Prefix reflection: if some suffix `r.drop k` of the unbordered,
`$`-free literal `r` is a prefix of the collapsed output, it was already a
prefix of the input to the collapse pass. -/
theorem collapse_prefix_reflect {r : List Char} (hr : r ≠ []) (hds : '$' ∉ r)
    (hub : Unbordered r) :
    ∀ fuel s k, s.length ≤ fuel → k ≤ r.length →
      r.drop k <+: Regexp.replaceF (.plusLit r) r fuel s → r.drop k <+: s := by
  intro fuel
  induction fuel with
  | zero =>
    intro s k hs _ h
    have hnil : s = [] := List.length_eq_zero.mp (Nat.le_zero.mp hs)
    subst hnil
    rwa [replaceF_plusLit_nil hr] at h
  | succ n ih =>
    intro s k hs hk h
    match s with
    | [] => rwa [replaceF_plusLit_nil hr] at h
    | c :: rest =>
      have hrest : rest.length ≤ n := by
        rw [List.length_cons] at hs; omega
      by_cases hp : r <+: (c :: rest)
      · rw [replaceF_plusLit_cons_pos_nodollar hr hds hp] at h
        have hlen : (r.drop k).length ≤ r.length := by
          rw [List.length_drop]; omega
        have h2 : r.drop k <+: r := prefix_of_append_right h hlen
        have h3 : r.drop k = r.take (r.length - k) := by
          have h4 := List.prefix_iff_eq_take.mp h2
          rwa [List.length_drop] at h4
        rcases Nat.eq_zero_or_pos k with hk0 | hkpos
        · subst hk0
          simpa using hp
        · rcases Nat.lt_or_ge k r.length with hklt | hkge
          · have hne := hub (r.length - k) (by omega) (by omega)
            rw [show r.length - (r.length - k) = k by omega] at hne
            exact absurd h3.symm hne
          · have hkeq : k = r.length := le_antisymm hk hkge
            rw [hkeq, List.drop_length]
            exact List.nil_prefix
      · rw [replaceF_plusLit_cons_neg hr hp] at h
        rcases Nat.lt_or_ge k r.length with hklt | hkge
        · have hdk : r.drop k = r.get ⟨k, hklt⟩ :: r.drop (k+1) :=
            (List.getElem_cons_drop r k hklt).symm
          rw [hdk] at h ⊢
          rw [List.cons_prefix_cons] at h
          obtain ⟨hc, htail⟩ := h
          have htail2 := ih rest (k+1) hrest (by omega) htail
          rw [List.cons_prefix_cons]
          exact ⟨hc, htail2⟩
        · have hkeq : k = r.length := le_antisymm hk hkge
          rw [hkeq, List.drop_length]
          exact List.nil_prefix

/-- No two back-to-back copies of an unbordered, `$`-free non-empty
literal `r` survive its own collapse pass. -/
theorem collapse_no_adjacent {r : List Char} (hr : r ≠ []) (hds : '$' ∉ r)
    (hub : Unbordered r) :
    ∀ fuel s, s.length ≤ fuel → ¬ (r ++ r) <:+: Regexp.replaceF (.plusLit r) r fuel s := by
  intro fuel
  induction fuel with
  | zero =>
    intro s hs h
    have hnil : s = [] := List.length_eq_zero.mp (Nat.le_zero.mp hs)
    subst hnil
    rw [replaceF_plusLit_nil hr, List.infix_nil] at h
    exact hr (List.append_eq_nil.mp h).1
  | succ n ih =>
    intro s hs h
    match s with
    | [] =>
      rw [replaceF_plusLit_nil hr, List.infix_nil] at h
      exact hr (List.append_eq_nil.mp h).1
    | c :: rest =>
      have hrest : rest.length ≤ n := by
        rw [List.length_cons] at hs; omega
      by_cases hp : r <+: (c :: rest)
      · rw [replaceF_plusLit_cons_pos_nodollar hr hds hp] at h
        have htlen : (dropRuns r (c :: rest)).length ≤ n := by
          have h1 := dropRuns_length hr hp
          have h2 : 0 < r.length := List.length_pos.mpr hr
          rw [List.length_cons] at h1
          omega
        rcases infix_iff_exists_drop.mp h with ⟨i, hi⟩
        rcases Nat.lt_or_ge i r.length with hilt | hige
        · rw [List.drop_append_eq_append_drop] at hi
          rw [show i - r.length = 0 by omega, List.drop_zero] at hi
          rcases Nat.eq_zero_or_pos i with hi0 | hipos
          · subst hi0
            rw [List.drop_zero] at hi
            have hx : r <+: Regexp.replaceF (.plusLit r) r n (dropRuns r (c :: rest)) :=
              prefix_append_cancel hi
            have hx2 : r <+: dropRuns r (c :: rest) := by
              have h5 := collapse_prefix_reflect hr hds hub n (dropRuns r (c :: rest)) 0
                htlen (Nat.zero_le _)
              rw [List.drop_zero] at h5
              exact h5 hx
            exact dropRuns_not_prefix hr _ hx2
          · have h2 : (r ++ r).take (r.length - i)
                <+: r.drop i ++ Regexp.replaceF (.plusLit r) r n (dropRuns r (c :: rest)) :=
              (List.take_prefix _ _).trans hi
            have h3 : (r ++ r).take (r.length - i) = r.take (r.length - i) := by
              rw [List.take_append_eq_append_take]
              rw [show r.length - i - r.length = 0 by omega]
              simp
            rw [h3] at h2
            have htk : (r.take (r.length - i)).length = r.length - i := by
              rw [List.length_take, Nat.min_eq_left (by omega)]
            have h4 : r.take (r.length - i) <+: r.drop i :=
              prefix_of_append_right h2 (by rw [htk, List.length_drop])
            have h5 : r.take (r.length - i) = r.drop i :=
              h4.eq_of_length_le (by rw [htk, List.length_drop])
            have hne := hub (r.length - i) (by omega) (by omega)
            rw [show r.length - (r.length - i) = i by omega] at hne
            exact absurd h5 hne
        · rw [List.drop_append_eq_append_drop] at hi
          rw [List.drop_eq_nil_of_le (by omega), List.nil_append] at hi
          exact ih (dropRuns r (c :: rest)) htlen
            (infix_iff_exists_drop.mpr ⟨i - r.length, hi⟩)
      · rw [replaceF_plusLit_cons_neg hr hp] at h
        rcases infix_cons_elim h with hpre | hinf
        · have h1 : r <+: c :: Regexp.replaceF (.plusLit r) r n rest :=
            (List.prefix_append r r).trans hpre
          have h2 := collapse_prefix_reflect hr hds hub (n+1) (c :: rest) 0 hs (Nat.zero_le _)
          rw [List.drop_zero, replaceF_plusLit_cons_neg hr hp] at h2
          exact hp (h2 h1)
        · exact ih rest hrest hinf

/-- Wrapper form of `collapse_no_adjacent` for `Regexp.replace_all`. -/
theorem replace_all_plusLit_no_adjacent {r : List Char} (hr : r ≠ []) (hds : '$' ∉ r)
    (hub : Unbordered r) (s : List Char) :
    ¬ (r ++ r) <:+: Regexp.replace_all (.plusLit r) s r :=
  collapse_no_adjacent hr hds hub s.length s le_rfl

/-! ## Substitution facts -/

/-- The literal scanner leaves a string without any occurrence of the
needle unchanged. -/
theorem strReplaceF_of_not_infix {pat repl : List Char} :
    ∀ fuel s, ¬ pat <:+: s → strReplaceF pat repl fuel s = s := by
  intro fuel
  induction fuel with
  | zero => intro s _; cases s <;> simp [strReplaceF]
  | succ n ih =>
    intro s hni
    match s with
    | [] => simp [strReplaceF]
    | c :: rest =>
      simp only [strReplaceF]
      rw [if_neg (fun hpre => hni (List.IsPrefix.isInfix hpre))]
      rw [ih rest (fun hinf => hni (List.infix_cons hinf))]

/-- Rust `str::replace` is the identity when the needle never occurs. -/
theorem strReplace_of_not_infix {self pat repl : List Char} (h : ¬ pat <:+: self) :
    strReplace self pat repl = self := by
  have hp : pat ≠ [] := by rintro rfl; exact h List.nil_infix
  unfold strReplace
  rw [if_neg hp]
  exact strReplaceF_of_not_infix _ _ h

/-! ## The cleanup pattern is a syntactically valid regex -/

/-- One checker step on a backslash-escaped character. -/
theorem checkRegex_cons_esc (depth : Nat) (b : Bool) (d : Char) (rest : List Char) :
    checkRegex depth (.normal b) ('\\' :: d :: rest)
      = (isMeta d && checkRegex depth (.normal true) rest) := by
  simp only [checkRegex]
  simp

/-- One checker step on a plain (non-metacharacter) character. -/
theorem checkRegex_cons_plain {c : Char} (hm : isMeta c = false) (depth : Nat) (b : Bool)
    (rest : List Char) :
    checkRegex depth (.normal b) (c :: rest) = checkRegex depth (.normal true) rest := by
  have h1 : c ≠ '\\' := by rintro rfl; revert hm; decide
  have h2 : c ≠ '(' := by rintro rfl; revert hm; decide
  have h3 : c ≠ ')' := by rintro rfl; revert hm; decide
  have h4 : c ≠ '+' := by rintro rfl; revert hm; decide
  simp only [checkRegex]
  rw [if_neg h1, if_neg h2, if_neg h3, if_neg h4, hm]
  simp

/-- Scanning an escaped chunk through the validity checker consumes it and
leaves the checker in the "after an atom" state (unless the chunk was
empty, in which case nothing changes). -/
theorem checkRegex_escape :
    ∀ (s : List Char) (depth : Nat) (b : Bool) (rest : List Char),
      checkRegex depth (.normal b) (regexEscape s ++ rest)
        = checkRegex depth (.normal (if s = [] then b else true)) rest := by
  intro s
  induction s with
  | nil => intro depth b rest; simp [regexEscape]
  | cons c s2 ih =>
    intro depth b rest
    by_cases hm : isMeta c = true
    · have hesc : regexEscape (c :: s2) ++ rest = '\\' :: c :: (regexEscape s2 ++ rest) := by
        simp [regexEscape, escapeChar, hm]
      rw [hesc, checkRegex_cons_esc, hm, Bool.true_and, ih]
      simp
    · have hm2 : isMeta c = false := by simpa using hm
      have hpl : regexEscape (c :: s2) ++ rest = c :: (regexEscape s2 ++ rest) := by
        simp [regexEscape, escapeChar, hm2]
      rw [hpl, checkRegex_cons_plain hm2, ih]
      simp

/-! ## Claim theorems -/

/-- C1 (amended): for a non-empty replacement `r` that contains no `$`
(so the regex engine interpolates it to itself) and has no nontrivial
border (no nonempty proper prefix of `r` is also a suffix of `r`), the
collapse step of `string_replace_all` replaces each run of back-to-back
copies of `r` found by the leftmost-first greedy scan with exactly one
copy and the final output contains no two adjacent copies of `r` — on the
literal path whenever the substitution actually runs (literal distinct
from `r` and non-empty), and on the regex path unconditionally. For
bordered `r`, and for `$`-containing `r` (whose runs are replaced by
their own `$`-expansion rather than by one literal copy), the original
claim fails (see the counterexample). -/
theorem C1_collapse_no_adjacent_unbordered :
    (∀ (input s rep : List Char), rep ≠ [] → '$' ∉ rep → Unbordered rep →
        s ≠ rep → s ≠ [] →
      ¬ (rep ++ rep) <:+: string_replace_all input (.Str s) rep) ∧
    (∀ (input : List Char) (re : Regexp) (rep : List Char),
        rep ≠ [] → '$' ∉ rep → Unbordered rep →
      ¬ (rep ++ rep) <:+: string_replace_all input (.Regex re) rep) := by
  constructor
  · intro input s rep hrep hds hub hsr hs0
    have hcond : ¬ (s = rep ∨ s = []) := by tauto
    simp only [string_replace_all, if_neg hcond, if_pos hrep]
    exact replace_all_plusLit_no_adjacent hrep hds hub _
  · intro input re rep hrep hds hub
    simp only [string_replace_all, if_pos hrep]
    exact replace_all_plusLit_no_adjacent hrep hds hub _

/-- C1 witness: concrete instances of both conjuncts. -/
theorem C1_witness :
    (¬ ("ab".toList ++ "ab".toList) <:+:
        string_replace_all "zaabab".toList (.Str "q".toList) "ab".toList) ∧
    (¬ ("ab".toList ++ "ab".toList) <:+:
        string_replace_all "zaabab".toList (.Regex (.lit "q".toList)) "ab".toList) :=
  ⟨C1_collapse_no_adjacent_unbordered.1 "zaabab".toList "q".toList "ab".toList
      (by decide) (by decide) (by decide) (by decide) (by decide),
   C1_collapse_no_adjacent_unbordered.2 "zaabab".toList (.lit "q".toList) "ab".toList
      (by decide) (by decide) (by decide)⟩

/-- C1 counterexample, two independent failures of the original claim.
First: with the bordered replacement `"aba"`, the pattern `"X"` absent
from the input, the collapse pass leaves the input `"ababaababa"`
unchanged even though it contains the two adjacent copies `"abaaba"` of
the replacement — the leftmost-first greedy match at position 0 overlaps
the run starting at position 2, so that run survives. Second: with the
unbordered replacement `"$0"`, the cleanup regex matches the run
`"$0$0"` but its replacement interpolates `$0` to the whole match, so the
run is replaced by itself and two adjacent copies remain. -/
theorem C1_counterexample :
    (("aba".toList ++ "aba".toList) <:+:
      string_replace_all "ababaababa".toList (.Str "X".toList) "aba".toList) ∧
    (("$0".toList ++ "$0".toList) <:+:
      string_replace_all "x$0$0".toList (.Str "q".toList) "$0".toList) :=
  ⟨by decide, by decide⟩

/-- C2: the trait method `replace_all` (on `String`, and on `str` which
delegates to it) is plain `str::replace` for literals and plain
`Regex::replace_all` for regexes — no collapse pass and no short-circuit —
and it differs from `string_replace_all` on concrete inputs: the empty
literal inserts the replacement at every boundary instead of being a
no-op, and pre-existing runs of the replacement are not collapsed. -/
theorem C2_trait_replace_all_plain :
    (∀ (self p rep : List Char), replace_all self (.Str p) rep = strReplace self p rep) ∧
    (∀ (self : List Char) (re : Regexp) (rep : List Char),
      replace_all self (.Regex re) rep = Regexp.replace_all re self rep) ∧
    replace_all "ab".toList (.Str []) "X".toList = "XaXbX".toList ∧
    string_replace_all "ab".toList (.Str []) "X".toList = "ab".toList ∧
    replace_all "aa".toList (.Str "b".toList) "a".toList = "aa".toList ∧
    string_replace_all "aa".toList (.Str "b".toList) "a".toList = "a".toList :=
  ⟨fun _ _ _ => rfl, fun _ _ _ => rfl, by decide, by decide, by decide, by decide⟩

/-- C3 (amended): on empty input, `string_replace_all` returns the empty
string for every literal pattern and for every regex that has no match in
the empty string; a regex matching the empty string is a counterexample to
the original claim. -/
theorem C3_empty_input :
    (∀ (s rep : List Char), string_replace_all [] (.Str s) rep = []) ∧
    (∀ (re : Regexp) (rep : List Char), matchLen re [] = none →
      string_replace_all [] (.Regex re) rep = []) := by
  constructor
  · intro s rep
    by_cases hcond : s = rep ∨ s = []
    · simp only [string_replace_all, if_pos hcond]
    · have hs : s ≠ [] := by tauto
      have h1 : strReplace [] s rep = [] := by
        unfold strReplace
        rw [if_neg hs]
        simp [strReplaceF]
      by_cases hrep : rep = []
      · subst hrep
        simp only [string_replace_all, if_neg hcond, h1]
        simp
      · simp only [string_replace_all, if_neg hcond, h1, if_pos hrep]
        unfold Regexp.replace_all
        exact replaceF_plusLit_nil hrep rep _
  · intro re rep hm
    have h1 : Regexp.replace_all re [] rep = [] := by
      unfold Regexp.replace_all
      simp [Regexp.replaceF, hm]
    by_cases hrep : rep = []
    · subst hrep
      simp only [string_replace_all, h1]
      simp
    · simp only [string_replace_all, h1, if_pos hrep]
      unfold Regexp.replace_all
      exact replaceF_plusLit_nil hrep rep _

/-- C3 witness: a regex with no match in the empty string. -/
theorem C3_witness :
    matchLen (.lit "a".toList) [] = none ∧
    string_replace_all [] (.Regex (.lit "a".toList)) "b".toList = [] :=
  ⟨by decide, C3_empty_input.2 (.lit "a".toList) "b".toList (by decide)⟩

/-- C3 counterexample: the empty regex (`Regex::new("")`) matches the empty
input, so the output is the replacement, not the empty string. -/
theorem C3_counterexample :
    string_replace_all [] (.Regex (.lit [])) "X".toList ≠ [] := by decide

/-- C4: the literal fast path — when the literal equals the replacement or
is empty, `string_replace_all` returns the input unchanged, with no
substitution and no collapse pass. -/
theorem C4_literal_shortcircuit (input s rep : List Char) (h : s = rep ∨ s = []) :
    string_replace_all input (.Str s) rep = input := by
  simp only [string_replace_all, if_pos h]

/-- C4 witness: empty literal on a concrete input. -/
theorem C4_witness : string_replace_all "ab".toList (.Str []) "X".toList = "ab".toList :=
  C4_literal_shortcircuit "ab".toList [] "X".toList (Or.inr rfl)

/-- C5 (amended): the collapse pass runs on the raw input whenever the
substitution is a no-op — when the non-empty literal pattern does not occur
in the input (and the fast path does not fire), `string_replace_all` is
exactly the cleanup regex applied to the original input, so pre-existing
adjacency is rewritten identically to substitution-created adjacency.
For a `$`-free replacement, a pre-existing run whose start the
left-to-right greedy scan reaches is collapsed to one copy (concrete
conjunct); but a run overlapping an earlier leftmost match survives (see
the counterexample), and a `$`-containing replacement is interpolated, so
its runs are replaced by their expansion rather than by one copy. -/
theorem C5_collapse_preexisting :
    (∀ (input s rep : List Char), rep ≠ [] → s ≠ rep → s ≠ [] → ¬ s <:+: input →
      string_replace_all input (.Str s) rep
        = Regexp.replace_all (.plusLit rep) input rep) ∧
    string_replace_all "ZabaabaW".toList (.Str "Q".toList) "aba".toList = "ZabaW".toList := by
  constructor
  · intro input s rep hrep hsr hs0 hni
    have hcond : ¬ (s = rep ∨ s = []) := by tauto
    simp only [string_replace_all, if_neg hcond, strReplace_of_not_infix hni, if_pos hrep]
  · decide

/-- C5 witness: concrete instance of the no-occurrence conjunct. -/
theorem C5_witness :
    string_replace_all "ZabaabaW".toList (.Str "Q".toList) "aba".toList
      = Regexp.replace_all (.plusLit "aba".toList) "ZabaabaW".toList "aba".toList :=
  C5_collapse_preexisting.1 "ZabaabaW".toList "Q".toList "aba".toList
    (by decide) (by decide) (by decide) (by decide)

/-- C5 counterexample: the input `"ZababaababaZ"` contains the run
`"abaaba"` of two back-to-back copies of the replacement `"aba"`, the
pattern `"Q"` does not occur, yet the output still contains the run — the
leftmost-first greedy match starting earlier overlaps it, so it is not
collapsed into a single copy. -/
theorem C5_counterexample :
    string_replace_all "ZababaababaZ".toList (.Str "Q".toList) "aba".toList
        = "ZababaababaZ".toList ∧
    ("aba".toList ++ "aba".toList) <:+:
      string_replace_all "ZababaababaZ".toList (.Str "Q".toList) "aba".toList :=
  ⟨by decide, by decide⟩

/-- C6: for every replacement string, the cleanup pattern source text
`(?:escape(replacement))+` built at line 147 of src/lib.rs is a
syntactically valid regex of the modelled fragment, so the
`Regex::new(...).unwrap()` never panics and `string_replace_all` (a total
function in this embedding) has no failure path. -/
theorem C6_cleanup_pattern_valid (rep : List Char) :
    checkRegex 0 (.normal false) (cleanupPatternStr rep) = true := by
  have hstep : checkRegex 0 (.normal false) (cleanupPatternStr rep)
      = checkRegex 1 (.normal false) (regexEscape rep ++ [')', '+']) := by
    unfold cleanupPatternStr
    simp only [checkRegex]
    simp
  rw [hstep, checkRegex_escape]
  split <;> decide

/-- C7: with an empty replacement, the substitution deletes every match
(literal branch is plain `str::replace` with empty replacement, regex
branch is plain `Regex::replace_all`) and the collapse step is skipped
entirely; in particular the documented example keeps its trailing space. -/
theorem C7_empty_replacement :
    (∀ (input s : List Char), s ≠ [] →
      string_replace_all input (.Str s) [] = strReplace input s []) ∧
    (∀ (input : List Char) (re : Regexp),
      string_replace_all input (.Regex re) [] = Regexp.replace_all re input []) ∧
    string_replace_all "Hello world!".toList (.Str "world!".toList) [] = "Hello ".toList := by
  refine ⟨?_, ?_, by decide⟩
  · intro input s hs
    have hcond : ¬ (s = ([] : List Char) ∨ s = []) := by tauto
    simp only [string_replace_all, if_neg hcond]
    simp
  · intro input re
    simp only [string_replace_all]
    simp

/-- C7 witness: concrete instance of the literal conjunct. -/
theorem C7_witness :
    string_replace_all "abc".toList (.Str "b".toList) [] = strReplace "abc".toList "b".toList [] :=
  C7_empty_replacement.1 "abc".toList "b".toList (by decide)

/-- C8: re-collapsing an already-collapsed result with pattern `r` and
replacement `r` is a no-op for non-empty, unambiguously non-self-
overlapping (unbordered) `r` — in fact the outer call hits the
literal-equals-replacement fast path and returns its input unchanged. -/
theorem C8_idempotent_after_collapse (input : List Char) (p : Pattern) (r : List Char)
    (h1 : r ≠ []) (h2 : Unbordered r) :
    string_replace_all (string_replace_all input p r) (.Str r) r
      = string_replace_all input p r := by
  generalize string_replace_all input p r = X
  simp only [string_replace_all]
  simp

/-- C8 witness: concrete instance. -/
theorem C8_witness :
    string_replace_all (string_replace_all "abc".toList (.Str "b".toList) "x".toList)
        (.Str "x".toList) "x".toList
      = string_replace_all "abc".toList (.Str "b".toList) "x".toList :=
  C8_idempotent_after_collapse "abc".toList (.Str "b".toList) "x".toList
    (by decide) (by decide)

/-- C9: the documented cascading-spaces example — eight spaces, two-space
literal pattern, one-space replacement: the substitution leaves four
single spaces and the collapse step merges them into one. -/
theorem C9_spaces_example :
    string_replace_all "Hello        world!".toList (.Str "  ".toList) " ".toList
      = "Hello world!".toList := by decide

/-- C10: the documented case-insensitive regex example — the regex
`(?i)Dog` (modelled by the caseless literal `dog`) replaces both
non-overlapping leftmost-first matches with `ferret`, and the collapse
pass leaves the result unchanged. -/
theorem C10_regex_example :
    string_replace_all
        ("I think Ruth".toList ++ [Char.ofNat 39] ++ "s dog is cuter than your dog!".toList)
        (.Regex (.ilit "dog".toList)) "ferret".toList
      = "I think Ruth".toList ++ [Char.ofNat 39]
          ++ "s ferret is cuter than your ferret!".toList := by decide

